import Mathlib

/-!
Verification of `src/vs/workbench/parts/walkThrough/electron-browser/walkThroughPart.ts`.

The embedding models strings as `List Char` (`Str`), DOM elements and events as
explicit inductive types, and the stateful editor part as a step machine over an
explicit state record emitting event traces.  Asynchronous input resolution is
modelled by a `pending` set of in-flight resolutions whose completion is a
separate step, mirroring the promise chain in `setInput`.
-/

namespace WalkThrough

/-- Strings are modelled as lists of characters for easy induction. -/
abbrev Str := List Char

/-- Convert a Lean string literal to the character-list model. -/
def toL (s : String) : Str := s.data

/-! ## View-state store (`saveTextEditorViewState` / `loadTextEditorViewState`)

The memento is the nested mapping `resource → position → view state`, modelled
as association lists (JS objects keyed by strings / small integers). -/

/-- `IViewState` from walkThroughPart.ts: scroll offsets of the scrollbar. -/
structure IViewState where
  scrollTop : Int
  scrollLeft : Int
deriving DecidableEq, Repr

/-- `IWalkThroughEditorViewState`: the wrapper object stored in the memento. -/
structure IWalkThroughEditorViewState where
  viewState : IViewState
deriving DecidableEq, Repr

/-- Association-list lookup, modelling JS object property read. -/
def lookupA {α β : Type} [DecidableEq α] : List (α × β) → α → Option β
  | [], _ => none
  | (k, v) :: t, k' => if k' = k then some v else lookupA t k'

/-- Association-list update-or-insert, modelling JS object property write. -/
def setA {α β : Type} [DecidableEq α] : List (α × β) → α → β → List (α × β)
  | [], k, v => [(k, v)]
  | (k0, v0) :: t, k, v => if k = k0 then (k, v) :: t else (k0, v0) :: setA t k v

/-- Per-resource slot map: `IWalkThroughEditorViewStates` (keys 0, 1, 2 = `Position`). -/
abbrev ViewStatesMap := List (Nat × IWalkThroughEditorViewState)

/-- The `walkThroughEditorViewState` memento: resource string → slot map. -/
abbrev Memento := List (Str × ViewStatesMap)

/-- `WalkThroughPart.saveTextEditorViewState`: ensure the per-resource map exists,
then (only when `this.position` is a number) overwrite the slot entry with the
current scroll offsets. -/
def saveTextEditorViewState (m : Memento) (resource : Str) (position : Option Nat)
    (scrollTop scrollLeft : Int) : Memento :=
  let fileViewState := (lookupA m resource).getD []
  let editorViewState : IWalkThroughEditorViewState := ⟨⟨scrollTop, scrollLeft⟩⟩
  let fileViewState' := match position with
    | some p => setA fileViewState p editorViewState
    | none => fileViewState
  setA m resource fileViewState'

/-- `WalkThroughPart.loadTextEditorViewState`: pure nested lookup; `none` when
either level is absent. -/
def loadTextEditorViewState (m : Memento) (resource : Str) (position : Option Nat) :
    Option IWalkThroughEditorViewState :=
  match lookupA m resource with
  | none => none
  | some fileViewState =>
    match position with
    | none => none
    | some p => lookupA fileViewState p

/-- Effect of `loadTextEditorViewState` on the scrollbar: `updateState` is called
only when a state was found, otherwise the scroll position is untouched. -/
def applyLoadedViewState (m : Memento) (resource : Str) (position : Option Nat)
    (current : IViewState) : IViewState :=
  match loadTextEditorViewState m resource position with
  | some s => s.viewState
  | none => current

/-- A batch of `save` operations `(resource, slot, scrollTop, scrollLeft)` applied
in order to a memento. -/
def applySaves (m : Memento) : List (Str × Nat × Int × Int) → Memento
  | [] => m
  | (r, p, t, l) :: ops => applySaves (saveTextEditorViewState m r (some p) t l) ops

/-! ## Snippet height update (`updateHeight` inside `setInput`) -/

/-- Events emitted by `updateHeight`: style write, editor relayout, scrollbar rescan. -/
inductive SnipEv
  | setHeight (px : Nat)
  | layoutEditor
  | scanDomNode
deriving DecidableEq, Repr

/-- The height formula of `updateHeight`: `Math.max(model.getLineCount() + 1, 4) * lineHeight`. -/
def computeSnippetHeight (lineCount lineHeight : Nat) : Nat :=
  max (lineCount + 1) 4 * lineHeight

/-- `updateHeight(initial)`: compare the computed pixel height with the currently
applied `div.style.height` (`none` = the initial empty style); on difference, set
the style, call `editor.layout()`, and — only when not `initial` — rescan the
scrollbar.  Returns the new applied style and the emitted events. -/
def updateHeight (initial : Bool) (lineHeight lineCount : Nat) (cur : Option Nat) :
    Option Nat × List SnipEv :=
  let h := computeSnippetHeight lineCount lineHeight
  if cur ≠ some h then
    (some h, [SnipEv.setHeight h, SnipEv.layoutEditor] ++
      if initial then [] else [SnipEv.scanDomNode])
  else (cur, [])

/-! ## `WalkThroughPart.layout` -/

/-- Entries of `this.contentDisposables`: live snippet editors (`CodeEditor`
instances) and other disposables (event subscriptions). -/
inductive Disp
  | editor (d : Nat)
  | subscription (d : Nat)
deriving DecidableEq, Repr

/-- Events emitted by `layout`. -/
inductive LayoutEv
  | setSize (width height : Nat)
  | addCompactClass
  | removeCompactClass
  | layoutEditor (d : Nat)
  | scanDomNode
deriving DecidableEq, Repr

/-- The slice of part state `layout` touches: whether the content has a first
child and, if so, whether it currently carries the `max-height-690px` class,
plus the content disposables it iterates over. -/
structure LayoutState where
  innerCompact : Option Bool
  contentDisposables : List Disp
deriving DecidableEq, Repr

/-- `WalkThroughPart.layout({width, height})`: style the content root, toggle the
`max-height-690px` class on the first child via `height <= 690`, forward
`layout()` to every `CodeEditor` among the content disposables, and finish with
`scrollbar.scanDomNode()`. -/
def layout (st : LayoutState) (width height : Nat) : LayoutState × List LayoutEv :=
  let classEvs := match st.innerCompact with
    | none => []
    | some _ => [if height ≤ 690 then LayoutEv.addCompactClass else LayoutEv.removeCompactClass]
  let editorEvs := st.contentDisposables.filterMap fun d =>
    match d with
    | Disp.editor i => some (LayoutEv.layoutEditor i)
    | Disp.subscription _ => none
  (⟨st.innerCompact.map fun _ => decide (height ≤ 690), st.contentDisposables⟩,
   [LayoutEv.setSize width height] ++ classEvs ++ editorEvs ++ [LayoutEv.scanDomNode])

/-! ## Lifecycle trace machine (`setInput`, `clearInput`, `shutdown`, `dispose`)

`setInput` runs a synchronous prelude (save outgoing view state, dispose the
content disposables, clear the content) and then chains onto the asynchronous
`input.resolve(true)`; the resolution callback (which mounts the rendered plan,
pushes fresh disposables, rescans and loads the view state) is a separate step.
The code contains no staleness check in that callback. -/

/-- Observable events of the lifecycle machine. -/
inductive WTEv
  | saveState (resource : Str)
  | disposeItem (d : Nat)
  | clearContent
  | mountPlan (call : Nat)
  | scanDom
  | loadState (resource : Str)
deriving DecidableEq, Repr

/-- Lifecycle state: current input resource, the `contentDisposables` list
(disposable handles by identity), which calls' plans are mounted in the content
subtree, in-flight resolutions `(callId, resource, snippetCount)`, and fresh-id
counters for calls and disposables. -/
structure WTState where
  input : Option Str
  contentDisposables : List Nat
  mountedPlans : List Nat
  pending : List (Nat × Str × Nat)
  nextCall : Nat
  nextDisp : Nat
deriving DecidableEq, Repr

/-- The state of a freshly created part. -/
def initState : WTState := ⟨none, [], [], [], 0, 0⟩

/-- Synchronous prelude of `WalkThroughPart.setInput`: save the outgoing
walkthrough input's view state, dispose (and empty) `contentDisposables`, clear
`content.innerHTML`, set the new input and register the in-flight resolution. -/
def setInputOp (st : WTState) (resource : Str) (snippetCount : Nat) : WTState × List WTEv :=
  let saveEvs := match st.input with
    | some r => [WTEv.saveState r]
    | none => []
  (⟨some resource, [], [], st.pending ++ [(st.nextCall, resource, snippetCount)],
    st.nextCall + 1, st.nextDisp⟩,
   saveEvs ++ st.contentDisposables.map WTEv.disposeItem ++ [WTEv.clearContent])

/-- Completion of the resolution of call `c` (the Markdown branch of the
`setInput` promise chain): unconditionally mount the rendered plan, push fresh
disposables (the root theme subscription plus editor, content-change and theme
subscriptions per snippet), rescan the scrollbar and load the view state of the
resolved input's resource. -/
def resolveOp (st : WTState) (c : Nat) : WTState × List WTEv :=
  match st.pending.find? (fun p => p.1 == c) with
  | none => (st, [])
  | some (_, r, k) =>
    (⟨st.input, st.contentDisposables ++ List.range' st.nextDisp (3 * k + 1),
      st.mountedPlans ++ [c], st.pending.filter (fun p => p.1 ≠ c), st.nextCall,
      st.nextDisp + (3 * k + 1)⟩,
     [WTEv.mountPlan c, WTEv.scanDom, WTEv.loadState r])

/-- `WalkThroughPart.clearInput`: save the outgoing walkthrough input's view
state, then `super.clearInput()` (drops the input reference; nothing else). -/
def clearInputOp (st : WTState) : WTState × List WTEv :=
  let saveEvs := match st.input with
    | some r => [WTEv.saveState r]
    | none => []
  ({ st with input := none }, saveEvs)

/-- `WalkThroughPart.shutdown`: save the outgoing walkthrough input's view state,
then `super.shutdown()`. -/
def shutdownOp (st : WTState) : WTState × List WTEv :=
  let saveEvs := match st.input with
    | some r => [WTEv.saveState r]
    | none => []
  (st, saveEvs)

/-- `WalkThroughPart.dispose`: dispose (and empty) `contentDisposables` (then the
part-level disposables, outside this model's scope). -/
def disposeOp (st : WTState) : WTState × List WTEv :=
  ({ st with contentDisposables := [] }, st.contentDisposables.map WTEv.disposeItem)

/-- External stimuli driving the lifecycle machine. -/
inductive WTCmd
  | setInput (resource : Str) (snippetCount : Nat)
  | resolve (c : Nat)
  | clearInput
  | shutdown
  | disposePart
deriving DecidableEq, Repr

/-- One step of the lifecycle machine. -/
def step (st : WTState) : WTCmd → WTState × List WTEv
  | WTCmd.setInput r k => setInputOp st r k
  | WTCmd.resolve c => resolveOp st c
  | WTCmd.clearInput => clearInputOp st
  | WTCmd.shutdown => shutdownOp st
  | WTCmd.disposePart => disposeOp st

/-- Run a command sequence, concatenating the emitted events. -/
def run : WTState → List WTCmd → WTState × List WTEv
  | st, [] => (st, [])
  | st, c :: cs =>
    let p := step st c
    let q := run p.1 cs
    (q.1, p.2 ++ q.2)

/-- State well-formedness: distinct disposable handles, all below the fresh-id
counter. -/
def Inv (st : WTState) : Prop :=
  st.contentDisposables.Nodup ∧ ∀ d ∈ st.contentDisposables, d < st.nextDisp

/-- Decidable form of `Inv` for concrete witnesses. -/
instance (st : WTState) : Decidable (Inv st) := by
  unfold Inv; infer_instance

/-- The overlapping-`setInput` scenario of C2: document `a` is set, then document
`b` before `a` resolves; finally `a`'s resolution completes. -/
def c2Trace : List WTCmd :=
  [WTCmd.setInput (toL "a.md") 1, WTCmd.setInput (toL "b.md") 1, WTCmd.resolve 0]

/-! ## Click handling (`registerClickHandler` / `addFrom`)

Nodes carry their parsed URI (parsing `node.href` is delegated to the external
`URI` collaborator): `raw` is the full href text (used for the
`indexOf(baseElement.href)` substring test), `hash` the fragment without its
leading `#` (`none` for a falsy `node.hash`), and `query` the parsed JSON query
object as an association list (`none` for an absent query). -/

/-- Parsed URI model. -/
structure MUri where
  scheme : Str
  raw : Str
  query : Option (List (Str × Str))
  hash : Option Str
deriving DecidableEq, Repr

/-- The `command` scheme. -/
def commandScheme : Str := toL "command"

/-- The provenance key injected by `addFrom`. -/
def fromKey : Str := toL "from"

/-- `WalkThroughPart.addFrom`: leave non-`command` URIs alone; otherwise parse the
query (an absent query yields the empty object), set `query.from` to the input's
telemetry origin and write the query back. -/
def addFrom (telemetryFrom : Str) (uri : MUri) : MUri :=
  if uri.scheme = commandScheme then
    { uri with query := some (setA (uri.query.getD []) fromKey telemetryFrom) }
  else uri

/-- `hay.indexOf(needle) >= 0`: substring occurrence test. -/
def containsStr (needle : Str) : Str → Bool
  | [] => needle.isEmpty
  | c :: t => needle.isPrefixOf (c :: t) || containsStr needle t

/-- Ancestor-chain nodes walked by the click handler, from the event target up
to (excluding) the content root (`event.currentTarget`).  `anchor none` is an
`HTMLAnchorElement` with a falsy `href`; `button none` a button without a
`data-href` attribute. -/
inductive CNode
  | anchor (href : Option MUri)
  | button (dataHref : Option MUri)
  | plain
deriving DecidableEq, Repr

/-- Observable outcome of a click: the URI passed to `openerService.open` (if
any), the `scrollTop` passed to `scrollbar.updateState` (if any), and whether
`event.preventDefault()` was called. -/
structure ClickResult where
  opened : Option MUri
  scrolled : Option Int
  prevented : Bool
deriving DecidableEq, Repr

/-- The delegated click listener of `registerClickHandler`: walk up the ancestor
chain; on the first anchor with an href, either scroll in-document (href
contains the base href and carries a fragment — the scroll target found by
`querySelector(node.hash)` is modelled by `scrollTargets : fragment → top`) with
`preventDefault`, or open the (`addFrom`-tagged) URI with `preventDefault`; on
the first button, open its `data-href` URI (if present) without `preventDefault`;
plain nodes continue the walk, which stops at the content root. -/
def handleClick (baseHref telemetryFrom : Str) (scrollTargets : List (Str × Int))
    (containerTop : Int) : List CNode → ClickResult
  | [] => ⟨none, none, false⟩
  | CNode.anchor (some uri) :: _ =>
    if containsStr baseHref uri.raw && uri.hash.isSome then
      match uri.hash with
      | some h =>
        match lookupA scrollTargets h with
        | some targetTop => ⟨none, some (targetTop - containerTop), true⟩
        | none => ⟨none, none, true⟩
      | none => ⟨none, none, true⟩
    else
      ⟨some (addFrom telemetryFrom uri), none, true⟩
  | CNode.anchor none :: rest =>
    handleClick baseHref telemetryFrom scrollTargets containerTop rest
  | CNode.button (some uri) :: _ => ⟨some (addFrom telemetryFrom uri), none, false⟩
  | CNode.button none :: _ => ⟨none, none, false⟩
  | CNode.plain :: rest => handleClick baseHref telemetryFrom scrollTargets containerTop rest

/-- Nodes that let the ancestor walk continue: non-anchor, non-button elements
and anchors with a falsy href. -/
def passesThrough : CNode → Bool
  | CNode.plain => true
  | CNode.anchor none => true
  | _ => false

/-- A concrete `command:` button node for the C8 counterexample. -/
def c8CommandUri : MUri :=
  ⟨toL "command", toL "command:workbench.action.showCommands", none, none⟩

/-! ## Markdown rendering and anchor lookup (`setInput`, Markdown branch)

The custom `marked` renderer replaces the i-th fenced code block (in encounter
order) by `<div id="snippet-<fragment_i>" class="walkThroughEditorContainer">`,
where `fragment_i` is the i-th snippet model's URI fragment.  Each anchor is then
located with `querySelector('#' + id.replace(/\./g, '\\.'))`.  The DOM is
modelled as the flat list of rendered elements; the selector model parses `#`
followed by pieces separated by unescaped dots (first piece = id, the rest =
required classes), which is exactly what makes unescaped dots in an id selector
turn into class requirements. -/

/-- A rendered DOM element: id and class list. -/
structure Element where
  id : Str
  classes : List Str
deriving DecidableEq, Repr

/-- The class put on every snippet placeholder. -/
def wtContainerClass : Str := toL "walkThroughEditorContainer"

/-- The anchor id `snippet-<fragment>`. -/
def snippetIdOf (frag : Str) : Str := toL "snippet-" ++ frag

/-- The placeholder `<div>` emitted by the code-block renderer. -/
def mkAnchor (frag : Str) : Element := ⟨snippetIdOf frag, [wtContainerClass]⟩

/-- A non-anchor element produced from markdown prose (no id, no classes the
lookup cares about). -/
def textElement : Element := ⟨[], []⟩

/-- Markdown block-level tokens as seen by the renderer: prose, or a fenced code
block. -/
inductive MdBlock
  | text (s : Str)
  | code (c lang : Str)
deriving DecidableEq, Repr

/-- Number of fenced code blocks. -/
def countCodeBlocks : List MdBlock → Nat
  | [] => 0
  | MdBlock.code _ _ :: bs => countCodeBlocks bs + 1
  | MdBlock.text _ :: bs => countCodeBlocks bs

/-- Render the block list with the custom code renderer: the counter `i` starts
at 0 and increments once per code block; the i-th code block becomes the anchor
for `frags[i]`.  `none` models the runtime error the JS code hits when the
counter runs past the supplied snippet models. -/
def renderInner (frags : List Str) : List MdBlock → Nat → Option (List Element)
  | [], _ => some []
  | MdBlock.text _ :: bs, i => (renderInner frags bs i).map (textElement :: ·)
  | MdBlock.code _ _ :: bs, i =>
    match frags[i]? with
    | none => none
    | some f => (renderInner frags bs (i + 1)).map (mkAnchor f :: ·)

/-- The anchors among the rendered elements, in document order. -/
def anchorsOf (dom : List Element) : List Element :=
  dom.filter (fun e => e.classes.contains wtContainerClass)

/-- `id.replace(/\./g, '\\.')`: escape every dot for use inside a selector. -/
def escapeSelectorId : Str → Str
  | [] => []
  | c :: rest => (if c = '.' then ['\\', '.'] else [c]) ++ escapeSelectorId rest

/-- Prepend a character to the first piece of a piece list. -/
def consHeadPiece (c : Char) : List Str → List Str
  | [] => [[c]]
  | p :: ps => (c :: p) :: ps

/-- Split the selector text after `#` into id/class pieces at unescaped dots; a
backslash escapes the following character into the current piece. -/
def selectorPieces : Str → List Str
  | [] => [[]]
  | c :: rest =>
    if c = '\\' then
      match rest with
      | [] => [[]]
      | c' :: rest' => consHeadPiece c' (selectorPieces rest')
    else if c = '.' then [] :: selectorPieces rest
    else consHeadPiece c (selectorPieces rest)

/-- Does an element match an id piece plus class requirements? -/
def matchesSelector (idPiece : Str) (classPieces : List Str) (e : Element) : Bool :=
  e.id == idPiece && classPieces.all (fun cl => e.classes.contains cl)

/-- `container.querySelector(sel)` for the selectors the walkthrough uses
(`#` followed by an id, possibly with class requirements from unescaped dots):
the first matching element, if any. -/
def querySelectorIn (els : List Element) (sel : Str) : Option Element :=
  match sel with
  | '#' :: rest =>
    match selectorPieces rest with
    | idPiece :: classPieces => els.find? (matchesSelector idPiece classPieces)
    | [] => none
  | _ => none

/-- The lookup selector built in `setInput`: `'#' + id.replace(/\./g, '\\.')`. -/
def anchorLookupSelector (frag : Str) : Str :=
  '#' :: escapeSelectorId (snippetIdOf frag)

/-! ## Macro expansion (`expandMacros`)

`input.replace(/kb\(([a-z.\d\-]+)\)/gi, ...)`: scan left to right; at each
position try to match `kb(` (case-insensitive), then a non-empty run of
identifier characters (ASCII letters — the `/i` flag also admits uppercase —
digits, dots, hyphens), then `)`.  Since `)` is not an identifier character the
greedy capture is exactly the maximal run, and a position that fails resumes the
scan one character later. -/

/-- The fixed fallback label (`localize('walkThrough.unboundCommand', "unbound")`). -/
def UNBOUND_COMMAND : Str := toL "unbound"

/-- The regex character class `[a-z.\d\-]` under the `/i` flag. -/
def macroChar (c : Char) : Bool := c.isAlpha || c.isDigit || c == '.' || c == '-'

/-- Case-insensitive `k`. -/
def isKChar (c : Char) : Bool := c == 'k' || c == 'K'

/-- Case-insensitive `b`. -/
def isBChar (c : Char) : Bool := c == 'b' || c == 'B'

/-- Try to match a full `kb(<id>)` macro at the head of the text; on success
return the captured command id and the remaining text. -/
def tryMacro : Str → Option (Str × Str)
  | c1 :: c2 :: c3 :: rest =>
    if isKChar c1 && isBChar c2 && c3 == '(' then
      let kb := rest.takeWhile macroChar
      let tail := rest.dropWhile macroChar
      if kb.isEmpty then none
      else if tail.head? == some ')' then some (kb, tail.tail)
      else none
    else none
  | _ => none

/-- The replacement emitted per match: `<span class="shortcut">…</span>`. -/
def shortcutSpan (label : Str) : Str :=
  toL "<span class=\"shortcut\">" ++ label ++ toL "</span>"

/-- The label for one macro occurrence:
`keybindingService.lookupKeybindings(kb)[0]` formatted via `getLabelFor`, or the
fixed `UNBOUND_COMMAND` fallback when no keybinding is bound. -/
def macroLabel (lookupKeybindings : Str → List Str) (getLabelFor : Str → Str)
    (kb : Str) : Str :=
  match (lookupKeybindings kb).head? with
  | some keybinding => getLabelFor keybinding
  | none => UNBOUND_COMMAND

theorem tryMacro_rest_lt : ∀ (s kb rest : Str), tryMacro s = some (kb, rest) →
    rest.length < s.length := by
  intro s kb rest h
  match s with
  | [] => simp [tryMacro] at h
  | [c1] => simp [tryMacro] at h
  | [c1, c2] => simp [tryMacro] at h
  | c1 :: c2 :: c3 :: r =>
    simp only [tryMacro] at h
    by_cases hg : (isKChar c1 && isBChar c2 && c3 == '(') = true
    · rw [if_pos hg] at h
      by_cases hkb : (r.takeWhile macroChar).isEmpty
      · rw [if_pos hkb] at h; cases h
      · rw [if_neg hkb] at h
        by_cases hhead : ((r.dropWhile macroChar).head? == some ')') = true
        · rw [if_pos hhead] at h
          cases h
          have hne : r.dropWhile macroChar ≠ [] := by
            intro hnil
            rw [hnil] at hhead
            simp at hhead
          have h1 : (r.dropWhile macroChar).tail.length < (r.dropWhile macroChar).length := by
            cases hcase : r.dropWhile macroChar with
            | nil => exact absurd hcase hne
            | cons x xs => simp
          have h2 : (r.dropWhile macroChar).length ≤ r.length :=
            (List.dropWhile_sublist macroChar).length_le
          simp only [List.length_cons]
          omega
        · rw [if_neg hhead] at h; cases h
    · rw [if_neg hg] at h; cases h

/-- `WalkThroughPart.expandMacros`: replace every `kb(<command>)` occurrence by a
`shortcut` span holding the looked-up keybinding label (or the fixed fallback). -/
def expandMacros (lookupKeybindings : Str → List Str) (getLabelFor : Str → Str) :
    Str → Str
  | [] => []
  | c :: cs =>
    match h : tryMacro (c :: cs) with
    | some (kb, rest) =>
      shortcutSpan (macroLabel lookupKeybindings getLabelFor kb) ++
        expandMacros lookupKeybindings getLabelFor rest
    | none => c :: expandMacros lookupKeybindings getLabelFor cs
termination_by s => s.length
decreasing_by
  · exact tryMacro_rest_lt _ _ _ h
  · simp

/-- The literal text of a macro occurrence, `kb(<id>)`. -/
def kbMacroText (kb : Str) : Str := 'k' :: 'b' :: '(' :: (kb ++ [')'])

/-- Does `kb(` (case-insensitive) start here? -/
def startsKbOpen : Str → Bool
  | c1 :: c2 :: c3 :: _ => isKChar c1 && isBChar c2 && c3 == '('
  | _ => false

/-- Does `kb(` (case-insensitive) occur anywhere? -/
def hasKbOpen : Str → Bool
  | [] => false
  | c :: cs => startsKbOpen (c :: cs) || hasKbOpen cs

section Theorems

theorem lookupA_setA_self {α β : Type} [DecidableEq α] (m : List (α × β)) (k : α) (v : β) :
    lookupA (setA m k v) k = some v := by
  induction m with
  | nil => simp [setA, lookupA]
  | cons h t ih =>
    obtain ⟨k0, v0⟩ := h
    by_cases hk : k = k0
    · simp [setA, hk, lookupA]
    · simp [setA, hk, lookupA, Ne.symm hk, ih]

theorem lookupA_setA_ne {α β : Type} [DecidableEq α] (m : List (α × β)) (k k' : α) (v : β)
    (hne : k' ≠ k) : lookupA (setA m k v) k' = lookupA m k' := by
  induction m with
  | nil => simp [setA, lookupA, hne]
  | cons h t ih =>
    obtain ⟨k0, v0⟩ := h
    by_cases hk : k = k0
    · subst hk
      simp [setA, lookupA, hne]
    · by_cases hk' : k' = k0
      · simp [setA, hk, lookupA, hk']
      · simp [setA, hk, lookupA, hk', ih]

/-- A batch of saves touching neither level of `(resource, position)` keeps the
load a miss. -/
theorem load_applySaves_of_not_saved (ops : List (Str × Nat × Int × Int)) :
    ∀ (m : Memento) (d : Str) (s : Nat),
      (∀ o ∈ ops, ¬(o.1 = d ∧ o.2.1 = s)) →
      loadTextEditorViewState m d (some s) = none →
      loadTextEditorViewState (applySaves m ops) d (some s) = none := by
  induction ops with
  | nil => intro m d s _ h; simpa [applySaves] using h
  | cons o ops ih =>
    intro m d s hops h
    obtain ⟨r, p, t, l⟩ := o
    have hrp : ¬(r = d ∧ p = s) := hops _ (List.mem_cons_self _ _)
    have hrest : ∀ o ∈ ops, ¬(o.1 = d ∧ o.2.1 = s) :=
      fun o ho => hops o (List.mem_cons_of_mem _ ho)
    refine ih _ d s hrest ?_
    by_cases hr : r = d
    · subst hr
      have hp : p ≠ s := fun hps => hrp ⟨rfl, hps⟩
      unfold loadTextEditorViewState saveTextEditorViewState
      rw [lookupA_setA_self]
      unfold loadTextEditorViewState at h
      cases hm : lookupA m r with
      | none =>
        simp only [hm, Option.getD_none]
        rw [lookupA_setA_ne _ _ _ _ (Ne.symm hp)]
        simp [lookupA]
      | some fvs =>
        simp only [hm, Option.getD_some]
        rw [hm] at h
        rw [lookupA_setA_ne _ _ _ _ (Ne.symm hp)]
        exact h
    · unfold loadTextEditorViewState saveTextEditorViewState
      rw [lookupA_setA_ne _ _ _ _ (Ne.symm hr)]
      unfold loadTextEditorViewState at h
      exact h

/-- C3: `save(d, s, S)` followed by `load(d, s)` yields exactly `S`; and after any
batch of saves none of which touched `(d, s)`, `load(d, s)` yields nothing and
applying the load leaves the scroll position untouched. -/
theorem c3_view_state_round_trip (d : Str) (s : Nat) :
    (∀ (m : Memento) (top left : Int),
      loadTextEditorViewState (saveTextEditorViewState m d (some s) top left) d (some s) =
        some ⟨⟨top, left⟩⟩) ∧
    (∀ (ops : List (Str × Nat × Int × Int)) (current : IViewState),
      (∀ o ∈ ops, ¬(o.1 = d ∧ o.2.1 = s)) →
      loadTextEditorViewState (applySaves [] ops) d (some s) = none ∧
      applyLoadedViewState (applySaves [] ops) d (some s) current = current) := by
  constructor
  · intro m top left
    unfold loadTextEditorViewState saveTextEditorViewState
    rw [lookupA_setA_self]
    simp [lookupA_setA_self]
  · intro ops current hops
    have hnone : loadTextEditorViewState (applySaves [] ops) d (some s) = none := by
      refine load_applySaves_of_not_saved ops [] d s hops ?_
      simp [loadTextEditorViewState, lookupA]
    refine ⟨hnone, ?_⟩
    unfold applyLoadedViewState
    rw [hnone]

/-- C3 witness: a concrete save/load round trip together with a miss on an
untouched pair. -/
theorem c3_view_state_round_trip_witness :
    loadTextEditorViewState
        (saveTextEditorViewState [] (toL "walkThrough://a") (some 1) 120 0)
        (toL "walkThrough://a") (some 1) = some ⟨⟨120, 0⟩⟩ ∧
    loadTextEditorViewState
        (applySaves [] [(toL "walkThrough://a", 1, 120, 0)])
        (toL "walkThrough://b") (some 2) = none ∧
    applyLoadedViewState (applySaves [] [(toL "walkThrough://a", 1, 120, 0)])
        (toL "walkThrough://b") (some 2) ⟨7, 9⟩ = ⟨7, 9⟩ := by
  refine ⟨(c3_view_state_round_trip (toL "walkThrough://a") 1).1 [] 120 0, ?_, ?_⟩
  · exact ((c3_view_state_round_trip (toL "walkThrough://b") 2).2
      [(toL "walkThrough://a", 1, 120, 0)] ⟨7, 9⟩ (by decide)).1
  · exact ((c3_view_state_round_trip (toL "walkThrough://b") 2).2
      [(toL "walkThrough://a", 1, 120, 0)] ⟨7, 9⟩ (by decide)).2

/-- C5: at mount (`updateHeight(true)` on a fresh, unstyled host) the applied
height is exactly `max(L + 1, 4) * H`; and on a content change to line count
`L'`, the height is rewritten (style write and editor relayout) if and only if
the newly computed value differs from the currently applied one — and in either
case the applied height afterwards equals the formula. -/
theorem c5_snippet_height_formula (lineHeight lineCount lineCount' h0 : Nat) :
    (updateHeight true lineHeight lineCount none).1 =
      some (max (lineCount + 1) 4 * lineHeight) ∧
    (updateHeight false lineHeight lineCount' (some h0)).1 =
      some (computeSnippetHeight lineCount' lineHeight) ∧
    (SnipEv.setHeight (computeSnippetHeight lineCount' lineHeight) ∈
        (updateHeight false lineHeight lineCount' (some h0)).2 ↔
      computeSnippetHeight lineCount' lineHeight ≠ h0) ∧
    (SnipEv.layoutEditor ∈ (updateHeight false lineHeight lineCount' (some h0)).2 ↔
      computeSnippetHeight lineCount' lineHeight ≠ h0) := by
  refine ⟨by simp [updateHeight, computeSnippetHeight], ?_, ?_, ?_⟩
  · by_cases h : h0 = computeSnippetHeight lineCount' lineHeight
    · simp [updateHeight, h]
    · simp [updateHeight, h]
  · by_cases h : h0 = computeSnippetHeight lineCount' lineHeight
    · simp [updateHeight, h]
    · simp [updateHeight, h, Ne.symm h]
  · by_cases h : h0 = computeSnippetHeight lineCount' lineHeight
    · simp [updateHeight, h]
    · simp [updateHeight, h, Ne.symm h]

/-- C6: the initial sizing (`updateHeight(true)`) never rescans the scrollbar,
while a height change from a content-change notification (`updateHeight(false)`
with a differing computed value) applies the height, re-lays-out the editor and
then rescans — the rescan coming last. -/
theorem c6_rescan_discipline (lineHeight lineCount : Nat) (cur : Option Nat)
    (lineHeight' lineCount' h0 : Nat)
    (hdiff : computeSnippetHeight lineCount' lineHeight' ≠ h0) :
    SnipEv.scanDomNode ∉ (updateHeight true lineHeight lineCount cur).2 ∧
    (updateHeight false lineHeight' lineCount' (some h0)).2 =
      [SnipEv.setHeight (computeSnippetHeight lineCount' lineHeight'),
       SnipEv.layoutEditor, SnipEv.scanDomNode] := by
  constructor
  · by_cases h : cur = some (computeSnippetHeight lineCount lineHeight)
    · simp [updateHeight, h]
    · simp [updateHeight, h]
  · simp [updateHeight, Ne.symm hdiff]

/-- C6 witness: line count change 2 → 9 at line height 18, initially styled to
`max(2+1,4)*18 = 72`; new height `180` differs. -/
theorem c6_rescan_discipline_witness :
    SnipEv.scanDomNode ∉ (updateHeight true 18 2 none).2 ∧
    (updateHeight false 18 9 (some 72)).2 =
      [SnipEv.setHeight 180, SnipEv.layoutEditor, SnipEv.scanDomNode] :=
  c6_rescan_discipline 18 2 none 18 9 72 (by decide)

/-- C7: `layout(w, 690)` switches the inner content into the compact
(`max-height-690px`) state and `layout(w, 691)` out of it; every call styles the
content root with the given pixel size first, forwards `layout()` to every live
snippet editor, and finishes with exactly one scrollbar rescan. -/
theorem c7_layout (st : LayoutState) (w h : Nat) (b : Bool)
    (hinner : st.innerCompact = some b) :
    (layout st w 690).1.innerCompact = some true ∧
    (layout st w 691).1.innerCompact = some false ∧
    (layout st w h).2.head? = some (LayoutEv.setSize w h) ∧
    (∀ i, Disp.editor i ∈ st.contentDisposables →
      LayoutEv.layoutEditor i ∈ (layout st w h).2) ∧
    (layout st w h).2.count LayoutEv.scanDomNode = 1 ∧
    (layout st w h).2.getLast? = some LayoutEv.scanDomNode := by
  refine ⟨by simp [layout, hinner], by simp [layout, hinner], by simp [layout], ?_, ?_, ?_⟩
  · intro i hi
    have hmem : LayoutEv.layoutEditor i ∈ st.contentDisposables.filterMap (fun d =>
        match d with
        | Disp.editor i => some (LayoutEv.layoutEditor i)
        | Disp.subscription _ => none) := List.mem_filterMap.2 ⟨Disp.editor i, hi, rfl⟩
    simp only [layout, List.mem_append]
    tauto
  · have hcl0 : (match st.innerCompact with
        | none => ([] : List LayoutEv)
        | some _ =>
          [if h ≤ 690 then LayoutEv.addCompactClass else LayoutEv.removeCompactClass]).count
        LayoutEv.scanDomNode = 0 := by
      rw [hinner]
      by_cases hle : h ≤ 690 <;> simp [hle]
    have hed0 : (st.contentDisposables.filterMap (fun d =>
        match d with
        | Disp.editor i => some (LayoutEv.layoutEditor i)
        | Disp.subscription _ => none)).count LayoutEv.scanDomNode = 0 := by
      rw [List.count_eq_zero]
      intro hmem
      rcases List.mem_filterMap.1 hmem with ⟨d, _, hd⟩
      cases d <;> simp_all
    simp only [layout, List.count_append, hcl0, hed0]
    simp [List.count_cons]
  · simp only [layout]
    rw [List.getLast?_append]
    simp

/-- C7 witness: a state with inner content (non-compact), one editor and one
subscription, laid out at 1024×690. -/
theorem c7_layout_witness :
    (layout ⟨some false, [Disp.editor 5, Disp.subscription 6]⟩ 1024 690).1.innerCompact =
      some true ∧
    (layout ⟨some false, [Disp.editor 5, Disp.subscription 6]⟩ 1024 691).1.innerCompact =
      some false ∧
    (layout ⟨some false, [Disp.editor 5, Disp.subscription 6]⟩ 1024 690).2.head? =
      some (LayoutEv.setSize 1024 690) ∧
    (∀ i, Disp.editor i ∈ [Disp.editor 5, Disp.subscription 6] →
      LayoutEv.layoutEditor i ∈
        (layout ⟨some false, [Disp.editor 5, Disp.subscription 6]⟩ 1024 690).2) ∧
    (layout ⟨some false, [Disp.editor 5, Disp.subscription 6]⟩ 1024 690).2.count
      LayoutEv.scanDomNode = 1 ∧
    (layout ⟨some false, [Disp.editor 5, Disp.subscription 6]⟩ 1024 690).2.getLast? =
      some LayoutEv.scanDomNode := by
  have h := c7_layout ⟨some false, [Disp.editor 5, Disp.subscription 6]⟩ 1024 690 false rfl
  have h' := c7_layout ⟨some false, [Disp.editor 5, Disp.subscription 6]⟩ 1024 691 false rfl
  exact ⟨h.1, h'.2.1, h.2.2.1, h.2.2.2.1, h.2.2.2.2.1, h.2.2.2.2.2⟩

/-- C2 evidence: with `setInput(a.md)` followed by `setInput(b.md)` before `a.md`
resolves, the late completion of `a.md`'s resolution still mounts its plan (call
0) into the content subtree — and even loads `a.md`'s view state — although call
1 (`b.md`) is the most recent `setInput` call.  The resolution callback has no
staleness check. -/
theorem c2_stale_resolution_mounts :
    (run initState c2Trace).1.input = some (toL "b.md") ∧
    (run initState c2Trace).1.nextCall = 2 ∧
    (run initState c2Trace).1.mountedPlans = [0] ∧
    WTEv.mountPlan 0 ∈ (run initState c2Trace).2 ∧
    WTEv.loadState (toL "a.md") ∈ (run initState c2Trace).2 := by decide

theorem step_nextDisp_mono (st : WTState) (c : WTCmd) :
    st.nextDisp ≤ (step st c).1.nextDisp := by
  cases c with
  | setInput r k => simp [step, setInputOp]
  | resolve c =>
    simp only [step, resolveOp]
    split
    · exact le_refl _
    · simp
  | clearInput => simp [step, clearInputOp]
  | shutdown => simp [step, shutdownOp]
  | disposePart => simp [step, disposeOp]

theorem step_preserves_Inv (st : WTState) (c : WTCmd) (h : Inv st) : Inv (step st c).1 := by
  obtain ⟨hnd, hlt⟩ := h
  cases c with
  | setInput r k => exact ⟨List.nodup_nil, by simp [step, setInputOp]⟩
  | resolve c =>
    simp only [step, resolveOp]
    split
    · exact ⟨hnd, hlt⟩
    · refine ⟨List.Nodup.append hnd (List.nodup_range' _ _) ?_, ?_⟩
      · intro d hd hd'
        have h1 := hlt d hd
        have h2 := (List.mem_range'_1.1 hd').1
        simp only [WTState.contentDisposables] at h1 h2 ⊢
        omega
      · intro d hd
        simp only [WTState.contentDisposables, WTState.nextDisp] at hd ⊢
        rcases List.mem_append.1 hd with hd | hd
        · have := hlt d hd; omega
        · have := List.mem_range'_1.1 hd; omega
  | clearInput => exact ⟨hnd, hlt⟩
  | shutdown => exact ⟨hnd, hlt⟩
  | disposePart => exact ⟨List.nodup_nil, by simp [step, disposeOp]⟩

/-- A disposable handle that is fresh-bounded but not currently held is never
disposed by any later command. -/
theorem no_dispose_of_released (cmds : List WTCmd) :
    ∀ (st : WTState) (d : Nat), Inv st → d < st.nextDisp → d ∉ st.contentDisposables →
      WTEv.disposeItem d ∉ (run st cmds).2 := by
  induction cmds with
  | nil => intro st d _ _ _ h; simp [run] at h
  | cons c cs ih =>
    intro st d hInv hlt hnotin hmem
    simp only [run, List.mem_append] at hmem
    have hstep : WTEv.disposeItem d ∉ (step st c).2 := by
      cases c with
      | setInput r k =>
        simp only [step, setInputOp]
        intro hm
        rcases List.mem_append.1 hm with hm | hm
        · rcases List.mem_append.1 hm with hm | hm
          · cases hin : st.input with
            | none => rw [hin] at hm; simp at hm
            | some r0 => rw [hin] at hm; simp at hm
          · rcases List.mem_map.1 hm with ⟨d', hd', he⟩
            cases he; exact hnotin hd'
        · simp at hm
      | resolve c =>
        simp only [step, resolveOp]
        split
        · simp
        · simp
      | clearInput =>
        simp only [step, clearInputOp]
        cases hin : st.input with
        | none => simp
        | some r0 => simp
      | shutdown =>
        simp only [step, shutdownOp]
        cases hin : st.input with
        | none => simp
        | some r0 => simp
      | disposePart =>
        simp only [step, disposeOp]
        intro hm
        rcases List.mem_map.1 hm with ⟨d', hd', he⟩
        cases he; exact hnotin hd'
    have hnext : d ∉ (step st c).1.contentDisposables := by
      cases c with
      | setInput r k => simp [step, setInputOp]
      | resolve c =>
        simp only [step, resolveOp]
        split
        · exact hnotin
        · simp only [WTState.contentDisposables, List.mem_append]
          rintro (hd | hd)
          · exact hnotin hd
          · have := List.mem_range'_1.1 hd; omega
      | clearInput => exact hnotin
      | shutdown => exact hnotin
      | disposePart => simp [step, disposeOp]
    rcases hmem with hmem | hmem
    · exact hstep hmem
    · exact ih (step st c).1 d (step_preserves_Inv st c hInv)
        (lt_of_lt_of_le hlt (step_nextDisp_mono st c)) hnext hmem

/-- C4: on a document replacement (a `setInput` call while a walkthrough input is
current), the outgoing document's view state is saved as the very first action —
before the disposables are disposed, before the content is cleared, and before
any later mounting — and each snippet editor/subscription of the outgoing
document is disposed exactly once over the entire ensuing trace. -/
theorem c4_replacement_discipline (st : WTState) (r r' : Str) (k : Nat)
    (cmds : List WTCmd) (hInv : Inv st) (hin : st.input = some r) :
    (run st (WTCmd.setInput r' k :: cmds)).2.head? = some (WTEv.saveState r) ∧
    WTEv.clearContent ∈ (step st (WTCmd.setInput r' k)).2 ∧
    (∀ e ∈ (step st (WTCmd.setInput r' k)).2, ∀ c, e ≠ WTEv.mountPlan c) ∧
    (∀ d ∈ st.contentDisposables,
      (run st (WTCmd.setInput r' k :: cmds)).2.count (WTEv.disposeItem d) = 1) := by
  have hstepev : (step st (WTCmd.setInput r' k)).2 =
      WTEv.saveState r :: (st.contentDisposables.map WTEv.disposeItem ++ [WTEv.clearContent]) := by
    simp [step, setInputOp, hin]
  have hrun : (run st (WTCmd.setInput r' k :: cmds)).2 =
      (step st (WTCmd.setInput r' k)).2 ++ (run (step st (WTCmd.setInput r' k)).1 cmds).2 := by
    simp [run, step]
  refine ⟨?_, ?_, ?_, ?_⟩
  · rw [hrun, hstepev]; simp
  · rw [hstepev]; simp
  · rw [hstepev]
    intro e he c
    rcases List.mem_cons.1 he with rfl | he
    · simp
    · rcases List.mem_append.1 he with he | he
      · rcases List.mem_map.1 he with ⟨_, _, he⟩
        cases he; simp
      · rcases List.mem_singleton.1 he with rfl; simp
  · intro d hd
    have hcount1 : (step st (WTCmd.setInput r' k)).2.count (WTEv.disposeItem d) = 1 := by
      rw [hstepev]
      have hmapc : (st.contentDisposables.map WTEv.disposeItem).count (WTEv.disposeItem d) =
          st.contentDisposables.count d :=
        List.count_map_of_injective _ _ (fun a b h => by injection h) d
      simp only [List.count_cons, List.count_append, hmapc]
      rw [List.count_eq_one_of_mem hInv.1 hd]
      simp
    have hcount0 : (run (step st (WTCmd.setInput r' k)).1 cmds).2.count
        (WTEv.disposeItem d) = 0 := by
      rw [List.count_eq_zero]
      refine no_dispose_of_released cmds _ d
        (step_preserves_Inv st _ hInv) ?_ ?_
      · exact lt_of_lt_of_le (hInv.2 d hd) (step_nextDisp_mono st _)
      · simp [step, setInputOp]
    rw [hrun, List.count_append, hcount1, hcount0]

/-- C4 witness: replacing document `a.md` (with two live disposables) by `b.md`,
then letting the new resolution complete. -/
theorem c4_replacement_discipline_witness :
    (Inv ⟨some (toL "a.md"), [0, 1], [0], [], 1, 2⟩) ∧
    ((run ⟨some (toL "a.md"), [0, 1], [0], [], 1, 2⟩
        (WTCmd.setInput (toL "b.md") 1 :: [WTCmd.resolve 1])).2.head? =
      some (WTEv.saveState (toL "a.md")) ∧
    WTEv.clearContent ∈
      (step ⟨some (toL "a.md"), [0, 1], [0], [], 1, 2⟩ (WTCmd.setInput (toL "b.md") 1)).2 ∧
    (∀ e ∈ (step ⟨some (toL "a.md"), [0, 1], [0], [], 1, 2⟩
        (WTCmd.setInput (toL "b.md") 1)).2, ∀ c, e ≠ WTEv.mountPlan c) ∧
    (∀ d ∈ [0, 1],
      (run ⟨some (toL "a.md"), [0, 1], [0], [], 1, 2⟩
        (WTCmd.setInput (toL "b.md") 1 :: [WTCmd.resolve 1])).2.count
          (WTEv.disposeItem d) = 1)) :=
  ⟨by decide,
   c4_replacement_discipline ⟨some (toL "a.md"), [0, 1], [0], [], 1, 2⟩
     (toL "a.md") (toL "b.md") 1 [WTCmd.resolve 1] (by decide) rfl⟩

/-- C10: `clearInput` saves the current document's view state and only drops the
input reference — it leaves `contentDisposables` and the mounted content
untouched and emits no dispose or clear event; disposal of the content
disposables happens only through a subsequent `setInput` or through `dispose`. -/
theorem c10_clearInput_frame (st : WTState) (r : Str) (hin : st.input = some r) :
    (clearInputOp st).1 = { st with input := none } ∧
    (clearInputOp st).2 = [WTEv.saveState r] ∧
    (clearInputOp st).1.contentDisposables = st.contentDisposables ∧
    (clearInputOp st).1.mountedPlans = st.mountedPlans ∧
    (∀ d, WTEv.disposeItem d ∉ (clearInputOp st).2) ∧
    WTEv.clearContent ∉ (clearInputOp st).2 ∧
    (∀ d ∈ st.contentDisposables, ∀ r' k, WTEv.disposeItem d ∈ (setInputOp st r' k).2) ∧
    (∀ d ∈ st.contentDisposables, WTEv.disposeItem d ∈ (disposeOp st).2) ∧
    (∀ cmd : WTCmd, (∃ d, WTEv.disposeItem d ∈ (step st cmd).2) →
      (∃ r' k, cmd = WTCmd.setInput r' k) ∨ cmd = WTCmd.disposePart) := by
  refine ⟨by simp [clearInputOp], by simp [clearInputOp, hin], by simp [clearInputOp],
    by simp [clearInputOp], ?_, by simp [clearInputOp, hin], ?_, ?_, ?_⟩
  · intro d
    simp [clearInputOp, hin]
  · intro d hd r' k
    simp only [setInputOp, List.mem_append]
    exact Or.inl (Or.inr (List.mem_map.2 ⟨d, hd, rfl⟩))
  · intro d hd
    exact List.mem_map.2 ⟨d, hd, rfl⟩
  · intro cmd hcmd
    obtain ⟨d, hd⟩ := hcmd
    cases cmd with
    | setInput r' k => exact Or.inl ⟨r', k, rfl⟩
    | resolve c =>
      exfalso
      simp only [step, resolveOp] at hd
      split at hd
      · simp at hd
      · simp at hd
    | clearInput =>
      exfalso
      simp only [step, clearInputOp, hin] at hd
      simp at hd
    | shutdown =>
      exfalso
      simp only [step, shutdownOp, hin] at hd
      simp at hd
    | disposePart => exact Or.inr rfl

/-- C10 witness: a state with input `a.md`, two disposables and one mounted plan. -/
theorem c10_clearInput_frame_witness :
    (clearInputOp ⟨some (toL "a.md"), [0, 1], [0], [], 1, 2⟩).1 =
      ⟨none, [0, 1], [0], [], 1, 2⟩ ∧
    (clearInputOp ⟨some (toL "a.md"), [0, 1], [0], [], 1, 2⟩).2 =
      [WTEv.saveState (toL "a.md")] ∧
    (clearInputOp ⟨some (toL "a.md"), [0, 1], [0], [], 1, 2⟩).1.contentDisposables = [0, 1] ∧
    (clearInputOp ⟨some (toL "a.md"), [0, 1], [0], [], 1, 2⟩).1.mountedPlans = [0] :=
  have h := c10_clearInput_frame ⟨some (toL "a.md"), [0, 1], [0], [], 1, 2⟩ (toL "a.md") rfl
  ⟨h.1, h.2.1, h.2.2.1, h.2.2.2.1⟩

/-- Pass-through nodes do not affect the click outcome. -/
theorem handleClick_passThrough (baseHref telemetryFrom : Str)
    (scrollTargets : List (Str × Int)) (containerTop : Int) (pre rest : List CNode)
    (hpre : ∀ n ∈ pre, passesThrough n = true) :
    handleClick baseHref telemetryFrom scrollTargets containerTop (pre ++ rest) =
      handleClick baseHref telemetryFrom scrollTargets containerTop rest := by
  induction pre with
  | nil => rfl
  | cons n pre ih =>
    have hn := hpre n (List.mem_cons_self _ _)
    have hpre' : ∀ n ∈ pre, passesThrough n = true :=
      fun n hn => hpre n (List.mem_cons_of_mem _ hn)
    cases n with
    | anchor href =>
      cases href with
      | none => simpa [handleClick] using ih hpre'
      | some u => simp [passesThrough] at hn
    | button d => simp [passesThrough] at hn
    | plain => simpa [handleClick] using ih hpre'

/-- C8 counterexample: a click resolving to a `data-href` button carrying a
`command:` URI is handled (the navigation collaborator is invoked) yet
`preventDefault` is never called — the button branch of the listener lacks the
`event.preventDefault()` call, so a found match does not suppress default
navigation. -/
theorem c8_button_no_preventDefault :
    (handleClick (toL "http://localhost/") (toL "gettingStarted") [] 0
        [CNode.button (some c8CommandUri)]).opened = some (addFrom (toL "gettingStarted") c8CommandUri) ∧
    lookupA ((addFrom (toL "gettingStarted") c8CommandUri).query.getD []) fromKey =
      some (toL "gettingStarted") ∧
    (handleClick (toL "http://localhost/") (toL "gettingStarted") [] 0
        [CNode.button (some c8CommandUri)]).prevented = false := by
  refine ⟨rfl, ?_, rfl⟩
  decide

/-- C8 (amended): a click resolving to an anchor whose href contains the
document's base and carries a fragment scrolls to the target's offset without
invoking the navigation collaborator and suppresses default navigation; a click
resolving to an anchor or `data-href` button with a `command`-scheme reference
invokes the navigation collaborator with a `from` field injected into the
command URI's query — default navigation being suppressed in the anchor case but
not in the button case. -/
theorem c8_click_dispatch (baseHref telemetryFrom : Str)
    (scrollTargets : List (Str × Int)) (containerTop : Int) (pre : List CNode)
    (hpre : ∀ n ∈ pre, passesThrough n = true) :
    (∀ (uri : MUri) (h : Str) (targetTop : Int) (rest : List CNode),
      containsStr baseHref uri.raw = true → uri.hash = some h →
      lookupA scrollTargets h = some targetTop →
      handleClick baseHref telemetryFrom scrollTargets containerTop
          (pre ++ CNode.anchor (some uri) :: rest) =
        ⟨none, some (targetTop - containerTop), true⟩) ∧
    (∀ (uri : MUri) (rest : List CNode),
      uri.scheme = commandScheme →
      (containsStr baseHref uri.raw && uri.hash.isSome) = false →
      ∃ q, handleClick baseHref telemetryFrom scrollTargets containerTop
            (pre ++ CNode.anchor (some uri) :: rest) =
          ⟨some { uri with query := some q }, none, true⟩ ∧
        lookupA q fromKey = some telemetryFrom) ∧
    (∀ (uri : MUri) (rest : List CNode),
      uri.scheme = commandScheme →
      ∃ q, handleClick baseHref telemetryFrom scrollTargets containerTop
            (pre ++ CNode.button (some uri) :: rest) =
          ⟨some { uri with query := some q }, none, false⟩ ∧
        lookupA q fromKey = some telemetryFrom) := by
  refine ⟨?_, ?_, ?_⟩
  · intro uri h targetTop rest hbase hhash htarget
    rw [handleClick_passThrough _ _ _ _ _ _ hpre]
    simp [handleClick, hbase, hhash, htarget]
  · intro uri rest hscheme hcond
    rw [handleClick_passThrough _ _ _ _ _ _ hpre]
    refine ⟨setA (uri.query.getD []) fromKey telemetryFrom, ?_, ?_⟩
    · simp only [handleClick, hcond, Bool.false_eq_true, if_false]
      simp [addFrom, hscheme]
    · exact lookupA_setA_self _ _ _
  · intro uri rest hscheme
    rw [handleClick_passThrough _ _ _ _ _ _ hpre]
    refine ⟨setA (uri.query.getD []) fromKey telemetryFrom, ?_, ?_⟩
    · simp [handleClick, addFrom, hscheme]
    · exact lookupA_setA_self _ _ _

/-- C8 witness: an in-document anchor click (href containing the base, fragment
`section2` at offset 500, container top 20) and a `command:` anchor click after
one pass-through node. -/
theorem c8_click_dispatch_witness :
    handleClick (toL "http://localhost/") (toL "gettingStarted")
        [(toL "section2", 500)] 20
        ([CNode.plain] ++ CNode.anchor (some ⟨toL "http", toL "http://localhost/walkThrough#section2",
          none, some (toL "section2")⟩) :: []) =
      ⟨none, some 480, true⟩ ∧
    ∃ q, handleClick (toL "http://localhost/") (toL "gettingStarted")
          [(toL "section2", 500)] 20
          ([CNode.plain] ++ CNode.anchor (some c8CommandUri) :: []) =
        ⟨some { c8CommandUri with query := some q }, none, true⟩ ∧
      lookupA q fromKey = some (toL "gettingStarted") := by
  have h := c8_click_dispatch (toL "http://localhost/") (toL "gettingStarted")
    [(toL "section2", 500)] 20 [CNode.plain] (by decide)
  refine ⟨?_, ?_⟩
  · have := h.1 ⟨toL "http", toL "http://localhost/walkThrough#section2", none,
      some (toL "section2")⟩ (toL "section2") 500 [] (by decide) rfl (by decide)
    simpa using this
  · exact h.2.1 c8CommandUri [] rfl (by decide)

/-- Escaping dots round-trips through the selector parser: for backslash-free
text the whole escaped id parses back as one single piece. -/
theorem selectorPieces_escape (s : Str) (hs : '\\' ∉ s) :
    selectorPieces (escapeSelectorId s) = [s] := by
  induction s with
  | nil => rfl
  | cons c rest ih =>
    have hc : c ≠ '\\' := fun h => hs (h ▸ List.mem_cons_self _ _)
    have hrest : '\\' ∉ rest := fun h => hs (List.mem_cons_of_mem _ h)
    by_cases hdot : c = '.'
    · subst hdot
      simp only [escapeSelectorId, if_pos rfl, List.cons_append, List.nil_append]
      rw [selectorPieces.eq_def]
      simp [ih hrest, consHeadPiece]
    · simp only [escapeSelectorId, if_neg hdot, List.cons_append, List.nil_append]
      rw [selectorPieces.eq_def]
      simp [hc, hdot, ih hrest, consHeadPiece]

theorem snippetIdOf_no_backslash (frag : Str) (h : '\\' ∉ frag) :
    '\\' ∉ snippetIdOf frag := by
  intro hmem
  rcases List.mem_append.1 hmem with hm | hm
  · exact absurd hm (by decide)
  · exact h hm

theorem snippetIdOf_inj {f f' : Str} (h : snippetIdOf f = snippetIdOf f') : f = f' :=
  List.append_cancel_left h

theorem snippetIdOf_ne_nil (frag : Str) : snippetIdOf frag ≠ [] := by
  simp [snippetIdOf, toL]

/-- `find?` returns the unique element satisfying the predicate. -/
theorem find?_eq_of_unique {α : Type} (p : α → Bool) (l : List α) (a : α)
    (ha : a ∈ l) (hpa : p a = true) (huniq : ∀ b ∈ l, p b = true → b = a) :
    l.find? p = some a := by
  induction l with
  | nil => cases ha
  | cons x t ih =>
    by_cases hx : p x = true
    · rw [List.find?_cons_of_pos _ hx]
      rw [huniq x (List.mem_cons_self _ _) hx]
    · rw [List.find?_cons_of_neg _ hx]
      rcases List.mem_cons.1 ha with rfl | ha'
      · exact absurd hpa hx
      · exact ih ha' (fun b hb hpb => huniq b (List.mem_cons_of_mem _ hb) hpb)

/-- Shape of the rendered DOM: rendering succeeds when enough snippet models
remain, the anchors are exactly the remaining fragments' placeholders in
encounter order, and every element is prose or a placeholder of some supplied
fragment. -/
theorem renderInner_spec (frags : List Str) :
    ∀ (blocks : List MdBlock) (i : Nat),
      i + countCodeBlocks blocks ≤ frags.length →
      ∃ dom, renderInner frags blocks i = some dom ∧
        anchorsOf dom = ((frags.drop i).take (countCodeBlocks blocks)).map mkAnchor ∧
        ∀ e ∈ dom, e = textElement ∨ ∃ f ∈ frags, e = mkAnchor f := by
  intro blocks
  induction blocks with
  | nil =>
    intro i _
    exact ⟨[], rfl, by simp [anchorsOf, countCodeBlocks], by simp⟩
  | cons b bs ih =>
    intro i hle
    cases b with
    | text s =>
      have hle' : i + countCodeBlocks bs ≤ frags.length := by
        simpa [countCodeBlocks] using hle
      obtain ⟨dom, hdom, hanch, hmem⟩ := ih i hle'
      refine ⟨textElement :: dom, ?_, ?_, ?_⟩
      · simp [renderInner, hdom]
      · simpa [anchorsOf, countCodeBlocks, wtContainerClass, textElement] using hanch
      · intro e he
        rcases List.mem_cons.1 he with rfl | he'
        · exact Or.inl rfl
        · exact hmem e he'
    | code c lang =>
      have hcount : countCodeBlocks (MdBlock.code c lang :: bs) = countCodeBlocks bs + 1 := rfl
      have hi : i < frags.length := by omega
      have hle' : (i + 1) + countCodeBlocks bs ≤ frags.length := by
        rw [hcount] at hle; omega
      obtain ⟨dom, hdom, hanch, hmem⟩ := ih (i + 1) hle'
      refine ⟨mkAnchor frags[i] :: dom, ?_, ?_, ?_⟩
      · simp [renderInner, hdom, List.getElem?_eq_getElem hi]
      · have hdrop : frags.drop i = frags[i] :: frags.drop (i + 1) :=
          List.drop_eq_getElem_cons hi
        rw [hcount, hdrop]
        simp only [List.take_succ_cons, List.map_cons]
        rw [← hanch]
        simp [anchorsOf, mkAnchor, wtContainerClass]
      · intro e he
        rcases List.mem_cons.1 he with rfl | he'
        · exact Or.inr ⟨frags[i], List.getElem_mem hi, rfl⟩
        · exact hmem e he'

/-- C1: for a Markdown document whose fenced-code-block count equals the number
of supplied snippet models (with pairwise distinct, backslash-free fragments),
rendering produces exactly N placeholder anchors, the i-th anchor's id built
from the i-th fragment in encounter order, and each anchor is located by the
dot-escaped id selector — even when the fragment contains `.` characters. -/
theorem c1_markdown_anchors (frags : List Str) (blocks : List MdBlock)
    (hcount : countCodeBlocks blocks = frags.length)
    (hnodup : frags.Nodup)
    (hnb : ∀ f ∈ frags, '\\' ∉ f) :
    ∃ dom, renderInner frags blocks 0 = some dom ∧
      anchorsOf dom = frags.map mkAnchor ∧
      (anchorsOf dom).length = frags.length ∧
      ∀ (i : Nat) (hi : i < frags.length),
        querySelectorIn dom (anchorLookupSelector frags[i]) = some (mkAnchor frags[i]) := by
  obtain ⟨dom, hdom, hanch, hmem⟩ := renderInner_spec frags blocks 0 (by omega)
  rw [hcount] at hanch
  simp only [List.drop_zero, List.take_length] at hanch
  refine ⟨dom, hdom, hanch, by rw [hanch]; simp, ?_⟩
  intro i hi
  have hfi : frags[i] ∈ frags := List.getElem_mem hi
  have hpieces : selectorPieces (escapeSelectorId (snippetIdOf frags[i])) = [snippetIdOf frags[i]] :=
    selectorPieces_escape _ (snippetIdOf_no_backslash _ (hnb _ hfi))
  simp only [querySelectorIn, anchorLookupSelector, hpieces]
  refine find?_eq_of_unique _ dom (mkAnchor frags[i]) ?_ ?_ ?_
  · have : mkAnchor frags[i] ∈ anchorsOf dom := by
      rw [hanch]; exact List.mem_map_of_mem _ hfi
    exact List.mem_of_mem_filter this
  · simp [matchesSelector, mkAnchor]
  · intro b hb hpb
    rcases hmem b hb with rfl | ⟨f, _, rfl⟩
    · exfalso
      simp only [matchesSelector, textElement, Bool.and_eq_true, beq_iff_eq] at hpb
      exact snippetIdOf_ne_nil frags[i] hpb.1.symm
    · simp only [matchesSelector, mkAnchor, Bool.and_eq_true, beq_iff_eq] at hpb
      rw [snippetIdOf_inj hpb.1]

/-- C1 witness: two fenced code blocks among prose, fragments `1.ts` (with a
dot) and `2.ts`. -/
theorem c1_markdown_anchors_witness :
    ∃ dom, renderInner [toL "1.ts", toL "2.ts"]
        [MdBlock.text (toL "intro"), MdBlock.code (toL "let x = 1;") (toL "ts"),
         MdBlock.text (toL "more"), MdBlock.code (toL "let y = 2;") (toL "ts")] 0 = some dom ∧
      anchorsOf dom = [toL "1.ts", toL "2.ts"].map mkAnchor ∧
      (anchorsOf dom).length = [toL "1.ts", toL "2.ts"].length ∧
      ∀ (i : Nat) (hi : i < [toL "1.ts", toL "2.ts"].length),
        querySelectorIn dom (anchorLookupSelector [toL "1.ts", toL "2.ts"][i]) =
          some (mkAnchor [toL "1.ts", toL "2.ts"][i]) :=
  c1_markdown_anchors [toL "1.ts", toL "2.ts"]
    [MdBlock.text (toL "intro"), MdBlock.code (toL "let x = 1;") (toL "ts"),
     MdBlock.text (toL "more"), MdBlock.code (toL "let y = 2;") (toL "ts")]
    (by decide) (by decide) (by decide)

theorem expandMacros_cons_none (lk : Str → List Str) (gl : Str → Str) (c : Char)
    (cs : Str) (h : tryMacro (c :: cs) = none) :
    expandMacros lk gl (c :: cs) = c :: expandMacros lk gl cs := by
  rw [expandMacros]
  split
  · rename_i kb rest h'
    rw [h] at h'; cases h'
  · rfl

theorem expandMacros_cons_some (lk : Str → List Str) (gl : Str → Str) (c : Char)
    (cs kb rest : Str) (h : tryMacro (c :: cs) = some (kb, rest)) :
    expandMacros lk gl (c :: cs) =
      shortcutSpan (macroLabel lk gl kb) ++ expandMacros lk gl rest := by
  rw [expandMacros]
  split
  · rename_i kb' rest' h'
    rw [h] at h'
    cases h'
    rfl
  · rename_i h'
    rw [h] at h'; cases h'

theorem takeWhile_append_stop (p : Char → Bool) (l : Str) (x : Char) (t : Str)
    (hl : ∀ c ∈ l, p c = true) (hx : p x = false) :
    (l ++ x :: t).takeWhile p = l := by
  induction l with
  | nil => simp [List.takeWhile, hx]
  | cons c cs ih =>
    have hc : p c = true := hl c (List.mem_cons_self _ _)
    have hcs : ∀ c ∈ cs, p c = true := fun c hm => hl c (List.mem_cons_of_mem _ hm)
    simp [List.takeWhile, hc, ih hcs]

theorem dropWhile_append_stop (p : Char → Bool) (l : Str) (x : Char) (t : Str)
    (hl : ∀ c ∈ l, p c = true) (hx : p x = false) :
    (l ++ x :: t).dropWhile p = x :: t := by
  induction l with
  | nil => simp [List.dropWhile, hx]
  | cons c cs ih =>
    have hc : p c = true := hl c (List.mem_cons_self _ _)
    have hcs : ∀ c ∈ cs, p c = true := fun c hm => hl c (List.mem_cons_of_mem _ hm)
    simp [List.dropWhile, hc, ih hcs]

/-- At the head of a well-formed macro occurrence, `tryMacro` captures exactly
the command id (the run stops at `)`, which is not an identifier character). -/
theorem tryMacro_kbMacroText (kb s : Str) (hkb : kb ≠ [])
    (hchars : ∀ c ∈ kb, macroChar c = true) :
    tryMacro (kbMacroText kb ++ s) = some (kb, s) := by
  have hshape : kbMacroText kb ++ s = 'k' :: 'b' :: '(' :: (kb ++ ')' :: s) := by
    simp [kbMacroText]
  rw [hshape]
  have hpar : macroChar ')' = false := by decide
  simp only [tryMacro]
  rw [if_pos (by decide)]
  rw [takeWhile_append_stop _ _ _ _ hchars hpar, dropWhile_append_stop _ _ _ _ hchars hpar]
  rw [if_neg (by simpa [List.isEmpty_iff] using hkb)]
  simp

theorem tryMacro_none_of_not_starts (s : Str) (h : startsKbOpen s = false) :
    tryMacro s = none := by
  match s with
  | [] => rfl
  | [c1] => rfl
  | [c1, c2] => rfl
  | c1 :: c2 :: c3 :: r =>
    simp only [startsKbOpen] at h
    simp [tryMacro, h]

theorem startsKbOpen_cons3 (c1 c2 c3 : Char) (xs : Str) :
    startsKbOpen (c1 :: c2 :: c3 :: xs) = (isKChar c1 && isBChar c2 && c3 == '(') := rfl

/-- A macro occurrence appended after a text that does not start `kb(` cannot
create a `kb(` start at the boundary: the appended text itself begins `k`, `b`,
never `(`. -/
theorem startsKbOpen_append_macro (c : Char) (p' kb s : Str)
    (h : startsKbOpen (c :: p') = false) :
    startsKbOpen ((c :: p') ++ (kbMacroText kb ++ s)) = false := by
  match p' with
  | [] =>
    simp [kbMacroText, startsKbOpen_cons3, isBChar]
  | [d] =>
    simp [kbMacroText, startsKbOpen_cons3]
  | d :: e :: p'' =>
    simpa [startsKbOpen_cons3] using h

/-- Scanning a `kb(`-free text followed by a macro occurrence copies the text and
replaces the occurrence. -/
theorem expandMacros_replaces (lk : Str → List Str) (gl : Str → Str)
    (p kb s : Str) (hp : hasKbOpen p = false) (hkb : kb ≠ [])
    (hchars : ∀ c ∈ kb, macroChar c = true) :
    expandMacros lk gl (p ++ kbMacroText kb ++ s) =
      p ++ shortcutSpan (macroLabel lk gl kb) ++ expandMacros lk gl s := by
  induction p with
  | nil =>
    have hshape : ([] : Str) ++ kbMacroText kb ++ s = 'k' :: ('b' :: '(' :: (kb ++ [')']) ++ s) := by
      simp [kbMacroText]
    rw [hshape]
    rw [expandMacros_cons_some lk gl _ _ kb s
      (by rw [← List.cons_append]; exact tryMacro_kbMacroText kb s hkb hchars)]
    simp
  | cons c p' ih =>
    have hsplit : startsKbOpen (c :: p') = false ∧ hasKbOpen p' = false := by
      have := hp
      simp only [hasKbOpen, Bool.or_eq_false_iff] at this
      exact this
    have hshape : (c :: p') ++ kbMacroText kb ++ s = c :: (p' ++ (kbMacroText kb ++ s)) := by
      simp
    rw [hshape]
    rw [expandMacros_cons_none lk gl c _ ?_]
    · rw [← List.append_assoc, ih hsplit.2]
      simp
    · have hst : startsKbOpen ((c :: p') ++ (kbMacroText kb ++ s)) = false :=
        startsKbOpen_append_macro c p' kb s hsplit.1
      have := tryMacro_none_of_not_starts _ hst
      simpa using this

/-- C9: every `kb(<commandId>)` occurrence (preceded by `kb(`-free text) is
replaced by a `shortcut` span — holding the fixed `unbound` fallback label when
the keybinding lookup yields no binding (and, the function being total, no
exception is raised), or the first binding's formatted label when one exists. -/
theorem c9_macro_expansion (lk : Str → List Str) (gl : Str → Str)
    (p kb s : Str) (hp : hasKbOpen p = false) (hkb : kb ≠ [])
    (hchars : ∀ c ∈ kb, macroChar c = true) :
    (lk kb = [] →
      expandMacros lk gl (p ++ kbMacroText kb ++ s) =
        p ++ shortcutSpan UNBOUND_COMMAND ++ expandMacros lk gl s) ∧
    (∀ b bs, lk kb = b :: bs →
      expandMacros lk gl (p ++ kbMacroText kb ++ s) =
        p ++ shortcutSpan (gl b) ++ expandMacros lk gl s) := by
  constructor
  · intro hnone
    have := expandMacros_replaces lk gl p kb s hp hkb hchars
    rwa [show macroLabel lk gl kb = UNBOUND_COMMAND by simp [macroLabel, hnone]] at this
  · intro b bs hsome
    have := expandMacros_replaces lk gl p kb s hp hkb hchars
    rwa [show macroLabel lk gl kb = gl b by simp [macroLabel, hsome]] at this

/-- C9 witness: `"press kb(foo.bar)"` with an empty keybinding lookup expands to
`"press "` followed by the `unbound` shortcut span. -/
theorem c9_macro_expansion_witness :
    hasKbOpen (toL "press ") = false ∧
    expandMacros (fun _ => []) (fun b => b)
        (toL "press " ++ kbMacroText (toL "foo.bar") ++ []) =
      toL "press " ++ shortcutSpan UNBOUND_COMMAND ++
        expandMacros (fun _ => []) (fun b => b) [] :=
  ⟨by decide,
   (c9_macro_expansion (fun _ => []) (fun b => b) (toL "press ") (toL "foo.bar") []
      (by decide) (by decide) (by decide)).1 rfl⟩

end Theorems

end WalkThrough
